import Mathlib

/-!
Shallow embedding of the incremental-learning controller of `project_IL`
(src/model/IncrementalLearner.py and src/params.py), with theorems checking
the natural-language specification against the code.

Tensors are modelled over the rationals: a weight matrix or a batch of
feature vectors is a list of rows, each row a list of rationals.  Randomly
initialized tensors (the kaiming init of line 40) and the numeric effect of
an SGD update are parameters of the embedding, since their values are
irrelevant to the control-flow and data-flow properties below.
-/

namespace ProjectIL

/-- A tensor row: one feature or weight vector. -/
abbrev Vec : Type := List ℚ

/-- A 2-D tensor: a list of rows (batch of features, or a weight matrix). -/
abbrev Mat : Type := List Vec

/-- State of an `IncrementalLearner` as set up by `__init__`
(src/model/IncrementalLearner.py lines 20-67), restricted to the fields the
claims are about.  `fc_weight` is `net.fc.weight.data` (rows of the
classification head); `init_weights` is the tensor bound at line 40.  In the
source, `torch.nn.init.kaiming_normal_` initializes its argument in place and
returns that same tensor, so at construction `init_weights` and the head
weight are one and the same tensor object; `aliased` records whether they
still are (head replacement at lines 85-86 / 89-90 installs a fresh weight
tensor built by `torch.cat`, which breaks the alias).  `sigma` is the learned
scale of the cosine head; `prev_weight` stands for the head weights of the
deep-copied `prev_net` (line 80). -/
structure Learner where
  num_classes : Nat
  num_groups : Nat
  classes_per_group : Nat
  use_cosine : Bool
  use_distillation : Bool
  use_variation : Bool
  use_exemplars : Bool
  K : Nat
  current_step : Int
  n_known_classes : Nat
  fc_weight : Mat
  init_weights : Mat
  aliased : Bool
  sigma : ℚ
  prev_weight : Option Mat
deriving DecidableEq

/-- `IncrementalLearner.__init__` (lines 20-67).  The only fallible operation
is the integer division `num_classes // num_groups` at line 23, which raises
`ZeroDivisionError` exactly when `num_groups = 0`; the constructor performs no
divisibility check.  `w0` is the (random) kaiming-initialized head weight of
line 40 and `sigma0` the initial cosine scale; `self.use_variation` is the
conjunction computed at line 49; `K` is set from `n_exemplars` at line 62 when
exemplars are enabled. -/
def initLearner (num_classes num_groups : Nat)
    (use_cosine use_distillation cfg_use_variation use_exemplars : Bool)
    (n_exemplars : Nat) (w0 : Mat) (sigma0 : ℚ) : Except String Learner :=
  if num_groups = 0 then Except.error "ZeroDivisionError"
  else Except.ok
    { num_classes := num_classes
      num_groups := num_groups
      classes_per_group := num_classes / num_groups
      use_cosine := use_cosine
      use_distillation := use_distillation
      use_variation := use_distillation && cfg_use_variation
      use_exemplars := use_exemplars
      K := if use_exemplars then n_exemplars else 0
      current_step := -1
      n_known_classes := 0
      fc_weight := w0
      init_weights := w0
      aliased := true
      sigma := sigma0
      prev_weight := none }

/-- `step` (lines 70-72): advance the step counter and the count of known
classes. -/
def Learner.step (s : Learner) : Learner :=
  { s with
    current_step := s.current_step + 1
    n_known_classes := s.n_known_classes + s.classes_per_group }

/-- `step` called `k` times in a row. -/
def stepN (s : Learner) : Nat → Learner
  | 0 => s
  | k + 1 => (stepN s k).step

/-- `update_nets` (lines 75-102).  A no-op at the first step; afterwards it
snapshots the head into `prev_weight` when distillation is on (lines 79-80)
and regrows the head: the new weight matrix is the concatenation of the old
rows with `init_weights` (lines 83-91; both the plain and the cosine branch
perform the same `torch.cat`, the cosine branch additionally carrying `sigma`
over unchanged).  The freshly allocated head weight tensor no longer aliases
`init_weights`.  Optimizer and scheduler reallocation (lines 93-95) and the
ft-net cloning (lines 98-102) touch no field modelled here. -/
def update_nets (s : Learner) : Learner :=
  if s.current_step > 0 then
    { s with
      prev_weight := if s.use_distillation then some s.fc_weight else s.prev_weight
      fc_weight := s.fc_weight ++ s.init_weights
      aliased := false }
  else s

/-- One in-place numeric update of the head weights during training
(lines 156-160): the optimizer mutates `net.fc.weight` in place, so as long
as `init_weights` still aliases that tensor (before the first head
replacement) its stored values change along with it.  `f` abstracts the
numeric effect of the update. -/
def train_update (f : Mat → Mat) (s : Learner) : Learner :=
  { s with
    fc_weight := f s.fc_weight
    init_weights := if s.aliased then f s.fc_weight else s.init_weights }

/-- The operations a driver may perform on the learner state, as far as the
head-weight fields are concerned. -/
inductive Op where
  | stepOp : Op
  | updateNetsOp : Op
  | trainOp : (Mat → Mat) → Op

/-- Execute one operation. -/
def runOp (s : Learner) : Op → Learner
  | Op.stepOp => s.step
  | Op.updateNetsOp => update_nets s
  | Op.trainOp f => train_update f s

/-- Execute a list of operations in order. -/
def run (s : Learner) : List Op → Learner
  | [] => s
  | op :: ops => run (runOp s op) ops

/-- Sum of squares of the entries of a vector (the squared L2 norm).  After
the `F.normalize(_, p = 2)` of lines 184 and 188, every vector has L2 norm at
most 1, hence squared-entry sum at most 1 (exactly 1 for a nonzero input,
0 for a zero input); the theorems below carry that bound as a hypothesis
because the normalization itself involves a square root. -/
def sqSum (v : Vec) : ℚ := (v.map (fun x => x ^ 2)).sum

/-- Row-wise squared distance `torch.pow(label_mean - f, 2).sum(-1)`
(line 189) between the class mean and one feature row. -/
def sqDist (u v : Vec) : ℚ := (List.zipWith (fun a b => (a - b) ^ 2) u v).sum

/-- The loop of lines 190-192: for each already taken index, overwrite the
corresponding distance with the sentinel value 100000. -/
def forceTaken (distances : List ℚ) (idx_taken : List Nat) : List ℚ :=
  idx_taken.foldl (fun d i => d.set i (100000 : ℚ)) distances

/-- Index of the first minimal entry of a list (`distances.argmin().item()`,
line 193); 0 on the empty list. -/
def argminIdx : List ℚ → Nat
  | [] => 0
  | [_] => 0
  | x :: y :: ys =>
    let j := argminIdx (y :: ys)
    if (y :: ys).getD j 0 < x then j + 1 else 0

/-- `get_closest_exemplar_idx` (lines 187-193), taking the feature rows after
the L2 normalization of line 188: compute the squared distance of each row to
the class mean, force the distances of already taken indices to the sentinel
100000, and return the argmin. -/
def get_closest_exemplar_idx (label_mean : Vec) (rows : List Vec)
    (idx_taken : List Nat) : Nat :=
  argminIdx (forceTaken (rows.map (fun r => sqDist label_mean r)) idx_taken)

/-- The herding selection loop of `update_exemplars` (lines 217-223), run for
`k` iterations starting from the taken-index list `idx_taken`.  At a round
where the taken list is `tk`, the matrix passed to `get_closest_exemplar_idx`
is `features + exemplars_mean` with `exemplars_mean` the sum of the rows
`features[i]` for `i` in `tk`; that matrix is therefore a function of `tk`
alone, and `N tk` gives its rows after the L2 normalization of line 188. -/
def herdingLoop (label_mean : Vec) (N : List Nat → List Vec) :
    Nat → List Nat → List Nat
  | 0, idx_taken => idx_taken
  | k + 1, idx_taken =>
    let idx := get_closest_exemplar_idx label_mean (N idx_taken) idx_taken
    herdingLoop label_mean N k (idx_taken ++ [idx])

/-- Herding selection for one class with `num_exemplars` picks (lines
218-223): start from the empty taken list. -/
def herdingSelect (label_mean : Vec) (N : List Nat → List Vec)
    (num_exemplars : Nat) : List Nat :=
  herdingLoop label_mean N num_exemplars []

/-- The truncation loop of lines 203-205: the first `n_old` per-class
exemplar lists are cut to their first `m` entries.  In the source the loop
indexes `self.exemplars[i]` for `i < n_old`; in every reachable state the
stored list has exactly `n_old` entries (Python would raise `IndexError`
otherwise), which the theorems assume. -/
def truncateFirst (m : Nat) : Nat → List (List Nat) → List (List Nat)
  | _, [] => []
  | 0, ls => ls
  | n + 1, l :: ls => l.take m :: truncateFirst m n ls

/-- `update_exemplars` (lines 195-232) at the level of the per-class exemplar
lists; dataset entries are abstracted to naturals.  `exemplars` is the stored
list of per-class lists; `newClassSets` gives, for each label introduced at
this step (line 209, in class-introduction order), the rows of the dataset
for that class; `pick dsLen k` abstracts the selection branch of lines
219-226 (herding, or `random.sample` for the random policy), producing the
`idx_taken` list of `k` indices into a dataset of `dsLen` rows.  Guarded on
`use_exemplars` (line 195); `m = K // n_known_classes` (line 198);
truncation only after step 0 (lines 203-205); each new class contributes
`min(m, len(dataset))` selected rows (lines 217-230), appended in order
(line 232). -/
def update_exemplars (use_exemplars : Bool) (K n_known_classes cpg : Nat)
    (current_step : Int) (exemplars : List (List Nat))
    (newClassSets : List (List Nat)) (pick : Nat → Nat → List Nat) :
    List (List Nat) :=
  if use_exemplars then
    let m := K / n_known_classes
    let n_old := n_known_classes - cpg
    let ex := if current_step > 0 then truncateFirst m n_old exemplars
              else exemplars
    ex ++ newClassSets.map (fun ds =>
      let num_exemplars := min m ds.length
      let idx_taken := pick ds.length num_exemplars
      idx_taken.map (fun idx => ds.getD idx 0))
  else exemplars

/-- Sum of all entries of a matrix: the value of `torch.sum(features)` with
no dimension argument, as written at line 179 — a single scalar. -/
def matSum (b : Mat) : ℚ := (b.map (fun row => row.sum)).sum

/-- Component-wise sum of two vectors of the same length. -/
def vecAdd (u v : Vec) : Vec := List.zipWith (fun a b => a + b) u v

/-- The class-mean accumulation of `get_features_representation`
(lines 169-181), before the final L2 normalization of line 184: `mean`
starts as the zero vector of size `in_features` (line 169); for every batch
the code adds `torch.sum(features)` — the sum of ALL entries of the batch, a
scalar that broadcasting adds to every component (line 179) — and counts the
batch rows (line 180); at the end `mean` is divided by the total number of
images (line 181).  `batches` is the sequence of per-batch feature matrices
produced by the dataloader. -/
def computeClassMeanPreNorm (in_features : Nat) (batches : List Mat) : Vec :=
  let mean := batches.foldl (fun acc b => acc.map (fun x => x + matSum b))
    (List.replicate in_features 0)
  let tot : Nat := batches.foldl (fun acc b => acc + b.length) 0
  mean.map (fun x => x / (tot : ℚ))

/-- Modelled from the spec (the claim under test): the class feature mean as
the spec describes it, the component-wise average over all samples of the
per-sample feature vectors, before L2 normalization. -/
def specClassMeanPreNorm (in_features : Nat) (batches : List Mat) : Vec :=
  let samples := batches.flatten
  (samples.foldl vecAdd (List.replicate in_features 0)).map
    (fun x => x / (samples.length : ℚ))

/-- The four loss signals a training batch produces (lines 130-158). -/
structure LossSignals where
  class_input : Mat
  class_target : Mat
  dist_input : Option Mat
  dist_target : Option Mat
deriving DecidableEq

/-- Column restriction `t[:, -n:]`: the last `n` columns of every row. -/
def lastCols (n : Nat) (t : Mat) : Mat :=
  t.map (fun row => row.drop (row.length - n))

/-- Column restriction `t[:, :-n]`: all but the last `n` columns of every
row. -/
def dropLastCols (n : Nat) (t : Mat) : Mat :=
  t.map (fun row => row.take (row.length - n))

/-- The input/target selection of one training batch, `train` lines 130-154.
`output` and `features` are the current model logits and penultimate
features (line 128), `labels` the one-hot targets of width
`n_known_classes` (line 127), `ft_output` the value `self.ft_net(images)`
(line 141, only consulted in the variation branch), `prev_output` and
`prev_features` the previous-model logits and features (line 146).
`use_variation` is the effective session flag (line 49). -/
def defineSignals (use_distillation use_variation use_cosine : Bool)
    (current_step : Int) (n_new_classes : Nat)
    (output features labels ft_output prev_output prev_features : Mat) :
    LossSignals :=
  let class_input := output
  let class_target := labels
  if use_distillation && decide (current_step > 0) then
    let ci := if !use_cosine then lastCols n_new_classes class_input
              else class_input
    let ct := if !use_cosine then
                (if use_variation then lastCols n_new_classes ft_output
                 else lastCols n_new_classes class_target)
              else class_target
    let di := if use_cosine then features
              else dropLastCols n_new_classes output
    let dt := if use_cosine then prev_features else prev_output
    ⟨ci, ct, some di, some dt⟩
  else ⟨class_input, class_target, none, none⟩

/-- `train_ft` (lines 235-254): the entire body is guarded by the effective
`use_variation` flag; `body` abstracts the fine-tuning loop acting on the
ft-net state. -/
def train_ft {σ : Type} (use_variation : Bool) (body : σ → σ) (st : σ) : σ :=
  if use_variation then body st else st

/-! Theorems: the session counters. -/

theorem stepN_fields (s : Learner) (k : Nat) :
    (stepN s k).current_step = s.current_step + k ∧
    (stepN s k).n_known_classes = s.n_known_classes + k * s.classes_per_group ∧
    (stepN s k).classes_per_group = s.classes_per_group := by
  induction k with
  | zero => simp [stepN]
  | succ k ih =>
    refine ⟨?_, ?_, ?_⟩
    · simp only [stepN, Learner.step, ih.1]
      push_cast
      ring
    · simp only [stepN, Learner.step, ih.2.1, ih.2.2]
      ring
    · simp only [stepN, Learner.step, ih.2.2]

/-- C9: after `step()` has been called exactly `s + 1` times on a freshly
constructed session, the current step index equals `s` and the number of
known classes equals `(s + 1)` times classes-per-group. -/
theorem step_counts_after_fresh_construction
    (nc ng ne : Nat) (uc ud uv ue : Bool) (w0 : Mat) (sg : ℚ)
    (st : Learner) (s : Nat)
    (h : initLearner nc ng uc ud uv ue ne w0 sg = Except.ok st) :
    (stepN st (s + 1)).current_step = (s : Int) ∧
    (stepN st (s + 1)).n_known_classes = (s + 1) * st.classes_per_group := by
  have hcs : st.current_step = -1 ∧ st.n_known_classes = 0 := by
    unfold initLearner at h
    split at h
    · exact absurd h (by simp)
    · cases h
      exact ⟨rfl, rfl⟩
  obtain ⟨h1, h2, -⟩ := stepN_fields st (s + 1)
  refine ⟨?_, ?_⟩
  · rw [h1, hcs.1]; push_cast; ring
  · rw [h2, hcs.2]; ring

/-- Scenario A of the spec: 10 classes in 5 groups give classes-per-group 2,
and three calls to `step()` give current step 2 and 6 known classes. -/
def freshLearnerA : Learner :=
  { num_classes := 10
    num_groups := 5
    classes_per_group := 2
    use_cosine := false
    use_distillation := false
    use_variation := false
    use_exemplars := false
    K := 0
    current_step := -1
    n_known_classes := 0
    fc_weight := []
    init_weights := []
    aliased := true
    sigma := 1
    prev_weight := none }

theorem step_counts_witness :
    (stepN freshLearnerA (2 + 1)).current_step = ((2 : Nat) : Int) ∧
    (stepN freshLearnerA (2 + 1)).n_known_classes =
      (2 + 1) * freshLearnerA.classes_per_group :=
  step_counts_after_fresh_construction 10 5 0 false false false false [] 1
    freshLearnerA 2 (by rfl)

/-! Theorems on construction: divisibility is never checked. -/

/-- The session produced by constructing with 10 classes and 3 groups. -/
def learner_10_3 : Learner :=
  { num_classes := 10
    num_groups := 3
    classes_per_group := 3
    use_cosine := false
    use_distillation := false
    use_variation := false
    use_exemplars := false
    K := 0
    current_step := -1
    n_known_classes := 0
    fc_weight := []
    init_weights := []
    aliased := true
    sigma := 1
    prev_weight := none }

/-- C3 counterexample: with 10 total classes and 3 groups the class count is
not divisible by the group count, yet construction signals no error at all:
it succeeds and silently floors, returning a session with
classes_per_group = 3. -/
theorem construction_not_divisible_succeeds :
    10 % 3 ≠ 0 ∧
    initLearner 10 3 false false false false 0 [] 1 =
      Except.ok learner_10_3 := by
  exact ⟨by decide, rfl⟩

/-- C3 amended: session construction performs no divisibility check; for
every nonzero group count it succeeds and sets classes-per-group to the floor
of total classes over groups, and it fails (ZeroDivisionError from the
integer division) exactly when the group count is zero. -/
theorem construction_floor_division
    (nc ng ne : Nat) (uc ud uv ue : Bool) (w0 : Mat) (sg : ℚ)
    (h : ng ≠ 0) :
    ∃ st : Learner, initLearner nc ng uc ud uv ue ne w0 sg = Except.ok st ∧
      st.classes_per_group = nc / ng := by
  unfold initLearner
  rw [if_neg h]
  exact ⟨_, rfl, rfl⟩

theorem construction_floor_division_witness :
    ∃ st : Learner, initLearner 7 2 true true true true 100 [] 1 =
      Except.ok st ∧ st.classes_per_group = 7 / 2 :=
  construction_floor_division 7 2 100 true true true true [] 1 (by decide)

/-! Theorems on head growth. -/

/-- C4: at every head-growth event (a call to `update_nets` past the first
step), the leading rows of the regrown head weight matrix — all rows before
the newly appended ones — equal exactly the prior head rows. -/
theorem head_growth_preserves_old_rows (s : Learner)
    (h : s.current_step > 0) :
    (update_nets s).fc_weight.take s.fc_weight.length = s.fc_weight := by
  have hw : (update_nets s).fc_weight = s.fc_weight ++ s.init_weights := by
    simp [update_nets, h]
  rw [hw]
  exact List.take_left _ _

/-- A learner state sitting at step 1, about to grow its head. -/
def grownEx : Learner :=
  { num_classes := 4
    num_groups := 2
    classes_per_group := 2
    use_cosine := false
    use_distillation := true
    use_variation := false
    use_exemplars := false
    K := 0
    current_step := 1
    n_known_classes := 4
    fc_weight := [[1, 2], [3, 4]]
    init_weights := [[5, 6], [7, 8]]
    aliased := false
    sigma := 1
    prev_weight := none }

theorem head_growth_witness :
    (update_nets grownEx).fc_weight.take grownEx.fc_weight.length =
      grownEx.fc_weight :=
  head_growth_preserves_old_rows grownEx (by decide)

/-! Theorems on the class mean used by herding. -/

/-- C1 (code bug): on a class with a single batch of two samples of feature
dimension 2, with raw features [1, 0] and [0, 0], the mean accumulated by
`get_features_representation` is the constant vector [1/2, 1/2] — the line
179 `torch.sum(features)` sums every entry of the batch to one scalar, which
broadcasting adds to every component — whereas the component-wise average of
the per-sample feature vectors is [1/2, 0].  The two vectors are not related
by any scalar factor, so in particular their L2 normalizations differ: the
class mean used by herding selection is not the L2-normalized mean of the
per-sample feature vectors. -/
theorem class_mean_broadcast_bug :
    computeClassMeanPreNorm 2 [[[(1 : ℚ), 0], [0, 0]]] = [1/2, 1/2] ∧
    specClassMeanPreNorm 2 [[[(1 : ℚ), 0], [0, 0]]] = [1/2, 0] ∧
    ∀ c : ℚ, computeClassMeanPreNorm 2 [[[(1 : ℚ), 0], [0, 0]]] ≠
      (specClassMeanPreNorm 2 [[[(1 : ℚ), 0], [0, 0]]]).map (fun x => c * x) := by
  have h1 : computeClassMeanPreNorm 2 [[[(1 : ℚ), 0], [0, 0]]] = [1/2, 1/2] := by
    norm_num [computeClassMeanPreNorm, matSum, List.replicate]
  have h2 : specClassMeanPreNorm 2 [[[(1 : ℚ), 0], [0, 0]]] = [1/2, 0] := by
    norm_num [specClassMeanPreNorm, vecAdd, List.replicate]
  refine ⟨h1, h2, ?_⟩
  intro c h
  rw [h1, h2] at h
  simp at h

/-! Theorems on the variation flag and the auxiliary fine-tuned model. -/

/-- C10: the effective variation flag stored by the constructor is the
conjunction of the distillation and variation configuration flags, so a
session built with distillation disabled has it false even when the
configuration asks for variation; `train_ft` is then the identity on the
ft-net state, and the per-batch signal selection of the main training loop
never consults the auxiliary model output — for any value of that output the
signals are the full logits, the full one-hot labels, and no distillation
pair. -/
theorem variation_requires_distillation
    (nc ng ne : Nat) (uc cfg_var ue : Bool) (w0 : Mat) (sg : ℚ)
    (st : Learner)
    (h : initLearner nc ng uc false cfg_var ue ne w0 sg = Except.ok st) :
    st.use_variation = false ∧
    (∀ (σ : Type) (body : σ → σ) (x : σ),
      train_ft st.use_variation body x = x) ∧
    (∀ (cs : Int) (n : Nat) (o f l ft po pf : Mat),
      defineSignals st.use_distillation st.use_variation st.use_cosine
          cs n o f l ft po pf = ⟨o, l, none, none⟩) := by
  have hst : st.use_variation = false ∧ st.use_distillation = false := by
    unfold initLearner at h
    split at h
    · exact absurd h (by simp)
    · cases h
      exact ⟨by simp, rfl⟩
  refine ⟨hst.1, ?_, ?_⟩
  · intro σ body x
    simp [train_ft, hst.1]
  · intro cs n o f l ft po pf
    simp [defineSignals, hst.2]

/-- A session constructed with distillation off but the variation
configuration flag on. -/
def learnerNoDistill : Learner :=
  { num_classes := 10
    num_groups := 5
    classes_per_group := 2
    use_cosine := false
    use_distillation := false
    use_variation := false
    use_exemplars := false
    K := 0
    current_step := -1
    n_known_classes := 0
    fc_weight := []
    init_weights := []
    aliased := true
    sigma := 1
    prev_weight := none }

theorem variation_requires_distillation_witness :
    learnerNoDistill.use_variation = false ∧
    train_ft learnerNoDistill.use_variation (fun n : Nat => n + 1) 5 = 5 ∧
    defineSignals learnerNoDistill.use_distillation
        learnerNoDistill.use_variation learnerNoDistill.use_cosine
        1 2 [[1, 2]] [[3]] [[0, 1]] [[9, 9]] [[4]] [[5]] =
      ⟨[[1, 2]], [[0, 1]], none, none⟩ := by
  obtain ⟨h1, h2, h3⟩ :=
    variation_requires_distillation 10 5 0 false true false [] 1
      learnerNoDistill (by rfl)
  exact ⟨h1, h2 Nat (fun n => n + 1) 5, h3 1 2 [[1, 2]] [[3]] [[0, 1]] [[9, 9]] [[4]] [[5]]⟩

/-! Theorems on the training-loop signal selection. -/

/-- C2: the four input/target assignment branches of the training loop.
Past the first step with distillation enabled: with a non-cosine head the
classification input is the output restricted to the last `n_new_classes`
columns and the classification target is the ft-net output restricted to
those columns when variation is on, else the one-hot labels restricted to
those columns, while the distillation pair is the current logits restricted
to the previously-known columns against the previous model full logits; with
a cosine head the classification pair stays the full output and full labels
and the distillation pair is the current against the previous penultimate
features; at the first step or with distillation disabled no distillation
pair is produced. -/
theorem train_signal_branches (ud uv uc : Bool) (cs : Int) (n : Nat)
    (o f l ft po pf : Mat) :
    ((ud = true ∧ cs > 0 ∧ uc = false ∧ uv = true) →
      defineSignals ud uv uc cs n o f l ft po pf =
        ⟨lastCols n o, lastCols n ft, some (dropLastCols n o), some po⟩) ∧
    ((ud = true ∧ cs > 0 ∧ uc = false ∧ uv = false) →
      defineSignals ud uv uc cs n o f l ft po pf =
        ⟨lastCols n o, lastCols n l, some (dropLastCols n o), some po⟩) ∧
    ((ud = true ∧ cs > 0 ∧ uc = true) →
      defineSignals ud uv uc cs n o f l ft po pf =
        ⟨o, l, some f, some pf⟩) ∧
    ((ud = false ∨ cs ≤ 0) →
      defineSignals ud uv uc cs n o f l ft po pf = ⟨o, l, none, none⟩) := by
  refine ⟨?_, ?_, ?_, ?_⟩
  · rintro ⟨h1, h2, h3, h4⟩
    simp [defineSignals, h1, h2, h3, h4]
  · rintro ⟨h1, h2, h3, h4⟩
    simp [defineSignals, h1, h2, h3, h4]
  · rintro ⟨h1, h2, h3⟩
    simp [defineSignals, h1, h2, h3]
  · rintro (h | h)
    · simp [defineSignals, h]
    · simp [defineSignals, not_lt.mpr h]

theorem train_signal_branches_witness :
    defineSignals true true false 1 1 [[1, 2]] [[9]] [[0, 1]] [[7, 8]] [[5, 6]] [[4]] =
      ⟨lastCols 1 [[1, 2]], lastCols 1 [[7, 8]],
        some (dropLastCols 1 [[1, 2]]), some [[5, 6]]⟩ ∧
    defineSignals true false false 1 1 [[1, 2]] [[9]] [[0, 1]] [[7, 8]] [[5, 6]] [[4]] =
      ⟨lastCols 1 [[1, 2]], lastCols 1 [[0, 1]],
        some (dropLastCols 1 [[1, 2]]), some [[5, 6]]⟩ ∧
    defineSignals true false true 1 1 [[1, 2]] [[9]] [[0, 1]] [[7, 8]] [[5, 6]] [[4]] =
      ⟨[[1, 2]], [[0, 1]], some [[9]], some [[4]]⟩ ∧
    defineSignals false true false 0 1 [[1, 2]] [[9]] [[0, 1]] [[7, 8]] [[5, 6]] [[4]] =
      ⟨[[1, 2]], [[0, 1]], none, none⟩ :=
  ⟨(train_signal_branches true true false 1 1 [[1, 2]] [[9]] [[0, 1]] [[7, 8]]
      [[5, 6]] [[4]]).1 ⟨rfl, by decide, rfl, rfl⟩,
   (train_signal_branches true false false 1 1 [[1, 2]] [[9]] [[0, 1]] [[7, 8]]
      [[5, 6]] [[4]]).2.1 ⟨rfl, by decide, rfl, rfl⟩,
   (train_signal_branches true false true 1 1 [[1, 2]] [[9]] [[0, 1]] [[7, 8]]
      [[5, 6]] [[4]]).2.2.1 ⟨rfl, by decide, rfl⟩,
   (train_signal_branches false true false 0 1 [[1, 2]] [[9]] [[0, 1]] [[7, 8]]
      [[5, 6]] [[4]]).2.2.2 (Or.inl rfl)⟩

/-! Theorems on herding selection. -/

theorem sqSum_nonneg (v : Vec) : 0 ≤ sqSum v := by
  induction v with
  | nil => simp [sqSum]
  | cons x xs ih =>
    simp only [sqSum, List.map_cons, List.sum_cons] at ih ⊢
    nlinarith [sq_nonneg x]

theorem sqDist_le (u : Vec) : ∀ v : Vec, sqDist u v ≤ 2 * sqSum u + 2 * sqSum v := by
  induction u with
  | nil =>
    intro v
    have h1 := sqSum_nonneg v
    have h2 : sqSum ([] : Vec) = 0 := by simp [sqSum]
    simp only [sqDist, List.zipWith_nil_left, List.sum_nil, h2]
    linarith
  | cons a u ih =>
    intro v
    cases v with
    | nil =>
      have h1 := sqSum_nonneg (a :: u)
      have h2 : sqSum ([] : Vec) = 0 := by simp [sqSum]
      simp only [sqDist, List.zipWith_nil_right, List.sum_nil, h2]
      linarith
    | cons b v =>
      have h1 := ih v
      simp only [sqDist, sqSum, List.zipWith_cons_cons, List.sum_cons,
        List.map_cons] at h1 ⊢
      nlinarith [sq_nonneg (a + b)]

theorem argminIdx_lt_length : ∀ (l : List ℚ), l ≠ [] → argminIdx l < l.length
  | [_], _ => by simp [argminIdx]
  | x :: y :: ys, _ => by
    have ih := argminIdx_lt_length (y :: ys) (by simp)
    simp only [argminIdx]
    split
    · simpa using Nat.succ_lt_succ ih
    · simp

theorem argminIdx_le : ∀ (l : List ℚ) (j : Nat), j < l.length →
    l.getD (argminIdx l) 0 ≤ l.getD j 0
  | [], j, hj => by simp at hj
  | [x], j, hj => by
    cases j with
    | zero => simp [argminIdx]
    | succ j => simp at hj
  | x :: y :: ys, j, hj => by
    have ih := fun j hj => argminIdx_le (y :: ys) j hj
    simp only [argminIdx]
    split
    · rename_i hlt
      rw [List.getD_cons_succ]
      cases j with
      | zero =>
        rw [List.getD_cons_zero]
        exact le_of_lt hlt
      | succ j =>
        rw [List.getD_cons_succ]
        exact ih j (by simpa using Nat.lt_of_succ_lt_succ hj)
    · rename_i hge
      rw [List.getD_cons_zero]
      cases j with
      | zero => simp
      | succ j =>
        rw [List.getD_cons_succ]
        exact le_trans (not_lt.mp hge) (ih j (by simpa using Nat.lt_of_succ_lt_succ hj))

theorem forceTaken_cons (d : List ℚ) (t : Nat) (ts : List Nat) :
    forceTaken d (t :: ts) = forceTaken (d.set t (100000 : ℚ)) ts := rfl

theorem forceTaken_length (tk : List Nat) : ∀ (d : List ℚ),
    (forceTaken d tk).length = d.length := by
  induction tk with
  | nil => intro d; rfl
  | cons t ts ih =>
    intro d
    rw [forceTaken_cons, ih, List.length_set]

theorem forceTaken_getD_not_mem (tk : List Nat) : ∀ (d : List ℚ) (i : Nat),
    i ∉ tk → (forceTaken d tk).getD i 0 = d.getD i 0 := by
  induction tk with
  | nil => intro d i _; rfl
  | cons t ts ih =>
    intro d i h
    have hne : t ≠ i := fun he => h (he ▸ List.mem_cons_self t ts)
    rw [forceTaken_cons, ih _ _ (fun hm => h (List.mem_cons_of_mem t hm))]
    simp [List.getD_eq_getElem?_getD, List.getElem?_set_ne hne]

theorem forceTaken_getD_mem (tk : List Nat) : ∀ (d : List ℚ) (i : Nat),
    i ∈ tk → i < d.length → (forceTaken d tk).getD i 0 = 100000 := by
  induction tk with
  | nil => intro d i h _; cases h
  | cons t ts ih =>
    intro d i hm hi
    rw [forceTaken_cons]
    by_cases hts : i ∈ ts
    · exact ih _ _ hts (by simpa using hi)
    · have hit : i = t := by
        rcases List.mem_cons.mp hm with h | h
        · exact h
        · exact absurd h hts
      subst hit
      rw [forceTaken_getD_not_mem ts _ _ hts]
      simp [List.getD_eq_getElem?_getD, List.getElem?_set_self, hi]

/-- The choice made by `get_closest_exemplar_idx` is a fresh valid index
whenever some untaken index exists: all genuine squared distances are at most
4 (the class mean and the normalized rows have squared norm at most 1), which
is below the sentinel 100000 forced onto taken indices. -/
theorem get_closest_valid (mean : Vec) (rows : List Vec) (tk : List Nat)
    (hnorm : ∀ v ∈ rows, sqSum v ≤ 1) (hmean : sqSum mean ≤ 1)
    (j : Nat) (hj : j < rows.length) (hjt : j ∉ tk) :
    get_closest_exemplar_idx mean rows tk < rows.length ∧
    get_closest_exemplar_idx mean rows tk ∉ tk := by
  set d := rows.map (fun r => sqDist mean r) with hd
  have hdlen : d.length = rows.length := by simp [hd]
  have ha : get_closest_exemplar_idx mean rows tk =
      argminIdx (forceTaken d tk) := rfl
  have hdval : ∀ i, i < rows.length → d.getD i 0 ≤ 4 := by
    intro i hi
    have hdi : i < d.length := by rw [hdlen]; exact hi
    have hget : d.getD i 0 = sqDist mean (rows.get ⟨i, hi⟩) := by
      rw [List.getD_eq_getElem?_getD, List.getElem?_eq_getElem hdi]
      simp [hd]
    rw [hget]
    have hmem : rows.get ⟨i, hi⟩ ∈ rows := List.mem_iff_get.mpr ⟨⟨i, hi⟩, rfl⟩
    have hb := sqDist_le mean (rows.get ⟨i, hi⟩)
    have hn := hnorm _ hmem
    linarith
  have hne : forceTaken d tk ≠ [] := by
    intro h
    have hl : (forceTaken d tk).length = rows.length := by
      rw [forceTaken_length, hdlen]
    rw [h] at hl
    simp at hl
    omega
  have hlt : argminIdx (forceTaken d tk) < rows.length := by
    have := argminIdx_lt_length (forceTaken d tk) hne
    rwa [forceTaken_length, hdlen] at this
  rw [ha]
  refine ⟨hlt, ?_⟩
  intro hmemtk
  have hjlt : j < (forceTaken d tk).length := by
    rw [forceTaken_length, hdlen]; exact hj
  have hmin := argminIdx_le (forceTaken d tk) j hjlt
  rw [forceTaken_getD_not_mem tk d j hjt] at hmin
  have hjv : d.getD j 0 ≤ 4 := hdval j hj
  have hforced : (forceTaken d tk).getD (argminIdx (forceTaken d tk)) 0 =
      100000 :=
    forceTaken_getD_mem tk d _ hmemtk (by rw [hdlen]; exact hlt)
  rw [hforced] at hmin
  linarith

theorem exists_not_mem_of_nodup_lt (tk : List Nat) (n : Nat)
    (hnd : tk.Nodup) (hlt : tk.length < n) :
    ∃ j, j < n ∧ j ∉ tk := by
  by_contra h
  push_neg at h
  have hsub : Finset.range n ⊆ tk.toFinset := by
    intro j hj
    exact List.mem_toFinset.mpr (h j (Finset.mem_range.mp hj))
  have hcard := Finset.card_le_card hsub
  rw [Finset.card_range, List.toFinset_card_of_nodup hnd] at hcard
  omega

theorem herdingLoop_spec (mean : Vec) (N : List Nat → List Vec) (n : Nat)
    (hlen : ∀ tk, (N tk).length = n)
    (hnorm : ∀ tk, ∀ v ∈ N tk, sqSum v ≤ 1)
    (hmean : sqSum mean ≤ 1) :
    ∀ (k : Nat) (tk : List Nat), tk.Nodup → (∀ i ∈ tk, i < n) →
      tk.length + k ≤ n →
      (herdingLoop mean N k tk).Nodup ∧
      (∀ i ∈ herdingLoop mean N k tk, i < n) ∧
      (herdingLoop mean N k tk).length = tk.length + k := by
  intro k
  induction k with
  | zero =>
    intro tk hnd hbd _
    exact ⟨hnd, hbd, by simp [herdingLoop]⟩
  | succ k ih =>
    intro tk hnd hbd hle
    obtain ⟨j, hj, hjt⟩ := exists_not_mem_of_nodup_lt tk n hnd (by omega)
    have hjr : j < (N tk).length := by rw [hlen tk]; exact hj
    have hc := get_closest_valid mean (N tk) tk (hnorm tk) hmean j hjr hjt
    rw [hlen tk] at hc
    set idx := get_closest_exemplar_idx mean (N tk) tk with hidx
    have h1 : (tk ++ [idx]).Nodup := by
      rw [List.nodup_append]
      refine ⟨hnd, List.nodup_singleton idx, ?_⟩
      intro a ha hb
      rw [List.mem_singleton] at hb
      subst hb
      exact hc.2 ha
    have h2 : ∀ i ∈ tk ++ [idx], i < n := by
      intro i hi
      rcases List.mem_append.mp hi with hi | hi
      · exact hbd i hi
      · rw [List.mem_singleton.mp hi]; exact hc.1
    have h3 : (tk ++ [idx]).length + k ≤ n := by
      simp only [List.length_append, List.length_singleton]
      omega
    have hrec := ih (tk ++ [idx]) h1 h2 h3
    have hstep : herdingLoop mean N (k + 1) tk =
        herdingLoop mean N k (tk ++ [idx]) := by
      rw [herdingLoop]
    rw [hstep]
    refine ⟨hrec.1, hrec.2.1, ?_⟩
    rw [hrec.2.2]
    simp only [List.length_append, List.length_singleton]
    omega

/-- C7: for a class of `n` samples, herding selection returns pairwise
distinct sample indices (taken indices are excluded by the sentinel forcing)
and exactly `min m n` of them, where `m` is the per-class quota.  `N tk`
gives the L2-normalized rows passed to `get_closest_exemplar_idx` at the
round with taken list `tk`; the hypotheses record that the rows and the
class mean are outputs of L2 normalization, hence of squared norm at most
1. -/
theorem herding_distinct_and_count (mean : Vec) (N : List Nat → List Vec)
    (n m : Nat)
    (hlen : ∀ tk, (N tk).length = n)
    (hnorm : ∀ tk, ∀ v ∈ N tk, sqSum v ≤ 1)
    (hmean : sqSum mean ≤ 1) :
    (herdingSelect mean N (min m n)).Nodup ∧
    (herdingSelect mean N (min m n)).length = min m n := by
  have h := herdingLoop_spec mean N n hlen hnorm hmean (min m n) []
    List.nodup_nil (by simp) (by simp [Nat.min_le_right m n])
  exact ⟨h.1, by simpa using h.2.2⟩

theorem herding_distinct_and_count_witness :
    (herdingSelect [1, 0] (fun _ => [[(1 : ℚ), 0], [0, 1]]) (min 1 2)).Nodup ∧
    (herdingSelect [1, 0] (fun _ => [[(1 : ℚ), 0], [0, 1]]) (min 1 2)).length =
      min 1 2 :=
  herding_distinct_and_count [1, 0] (fun _ => [[(1 : ℚ), 0], [0, 1]]) 2 1
    (fun _ => rfl)
    (by
      intro tk v hv
      rcases List.mem_cons.mp hv with h | h
      · rw [h]; norm_num [sqSum]
      · rw [List.mem_singleton.mp h]; norm_num [sqSum])
    (by norm_num [sqSum])

/-! Theorems on exemplar capacity. -/

theorem truncateFirst_eq_map (m : Nat) : ∀ (ls : List (List Nat)) (n : Nat),
    ls.length ≤ n → truncateFirst m n ls = ls.map (fun l => l.take m) := by
  intro ls
  induction ls with
  | nil =>
    intro n _
    cases n <;> rfl
  | cons l ls ih =>
    intro n h
    cases n with
    | zero => simp at h
    | succ n =>
      simp only [truncateFirst, List.map_cons]
      rw [ih n (by simpa using h)]

theorem sum_lengths_le (m : Nat) : ∀ (ls : List (List Nat)),
    (∀ l ∈ ls, l.length ≤ m) → (ls.map List.length).sum ≤ ls.length * m := by
  intro ls
  induction ls with
  | nil => simp
  | cons l ls ih =>
    intro h
    simp only [List.map_cons, List.sum_cons, List.length_cons]
    have h1 : l.length ≤ m := h l (List.mem_cons_self l ls)
    have h2 := ih (fun x hx => h x (List.mem_cons_of_mem l hx))
    calc l.length + (ls.map List.length).sum ≤ m + ls.length * m := by omega
    _ = (ls.length + 1) * m := by ring

/-- In any reachable state of a session (the stored exemplar list has one
entry per old class, and is empty before step 1), `update_exemplars` returns
exactly one list per known class, each of length at most the per-class quota
`K / n_known_classes`. -/
theorem update_exemplars_shape
    (K n_known cpg : Nat) (cs : Int)
    (exemplars newClassSets : List (List Nat)) (pick : Nat → Nat → List Nat)
    (hcpg : cpg ≤ n_known)
    (hlen : exemplars.length = n_known - cpg)
    (hstep : cs ≤ 0 → exemplars = [])
    (hnew : newClassSets.length = cpg)
    (hpick : ∀ a b, (pick a b).length = b) :
    (update_exemplars true K n_known cpg cs exemplars newClassSets pick).length
        = n_known ∧
    ∀ l ∈ update_exemplars true K n_known cpg cs exemplars newClassSets pick,
      l.length ≤ K / n_known := by
  have hun : update_exemplars true K n_known cpg cs exemplars newClassSets pick
      = (if cs > 0 then truncateFirst (K / n_known) (n_known - cpg) exemplars
         else exemplars) ++
        newClassSets.map (fun ds =>
          (pick ds.length (min (K / n_known) ds.length)).map
            (fun idx => ds.getD idx 0)) := rfl
  have hexlen :
      (if cs > 0 then truncateFirst (K / n_known) (n_known - cpg) exemplars
       else exemplars).length = n_known - cpg := by
    split
    · rw [truncateFirst_eq_map _ _ _ (le_of_eq hlen)]
      rw [List.length_map]
      exact hlen
    · rename_i h
      have h0 := hstep (not_lt.mp h)
      rw [h0]
      rw [h0] at hlen
      simpa using hlen
  have hexmem :
      ∀ l ∈ (if cs > 0 then
          truncateFirst (K / n_known) (n_known - cpg) exemplars
        else exemplars), l.length ≤ K / n_known := by
    split
    · rw [truncateFirst_eq_map _ _ _ (le_of_eq hlen)]
      intro l hl
      obtain ⟨l0, -, rfl⟩ := List.mem_map.mp hl
      rw [List.length_take]
      exact Nat.min_le_left _ _
    · rename_i h
      rw [hstep (not_lt.mp h)]
      intro l hl
      cases hl
  have hnewmem : ∀ l ∈ newClassSets.map (fun ds =>
      (pick ds.length (min (K / n_known) ds.length)).map
        (fun idx => ds.getD idx 0)), l.length ≤ K / n_known := by
    intro l hl
    obtain ⟨ds, -, rfl⟩ := List.mem_map.mp hl
    rw [List.length_map, hpick]
    exact Nat.min_le_left _ _
  constructor
  · rw [hun, List.length_append, hexlen, List.length_map, hnew]
    omega
  · rw [hun]
    intro l hl
    rcases List.mem_append.mp hl with h | h
    · exact hexmem l h
    · exact hnewmem l h

/-- C6: with exemplars enabled and in any reachable session state, after
`update_exemplars` there is exactly one stored list per known class, every
list holds at most `m = K / n_known_classes` entries, and the total number of
stored exemplars is at most the capacity `K`. -/
theorem update_exemplars_respects_capacity
    (K n_known cpg : Nat) (cs : Int)
    (exemplars newClassSets : List (List Nat)) (pick : Nat → Nat → List Nat)
    (_hpos : 0 < n_known) (hcpg : cpg ≤ n_known)
    (hlen : exemplars.length = n_known - cpg)
    (hstep : cs ≤ 0 → exemplars = [])
    (hnew : newClassSets.length = cpg)
    (hpick : ∀ a b, (pick a b).length = b) :
    (update_exemplars true K n_known cpg cs exemplars newClassSets pick).length
        = n_known ∧
    (∀ l ∈ update_exemplars true K n_known cpg cs exemplars newClassSets pick,
      l.length ≤ K / n_known) ∧
    ((update_exemplars true K n_known cpg cs exemplars newClassSets
        pick).map List.length).sum ≤ K := by
  obtain ⟨h1, h2⟩ := update_exemplars_shape K n_known cpg cs exemplars
    newClassSets pick hcpg hlen hstep hnew hpick
  refine ⟨h1, h2, ?_⟩
  have hsum := sum_lengths_le (K / n_known) _ h2
  rw [h1] at hsum
  have hdiv : n_known * (K / n_known) ≤ K := by
    rw [Nat.mul_comm]
    exact Nat.div_mul_le_self K n_known
  exact le_trans hsum hdiv

theorem update_exemplars_capacity_witness :
    (update_exemplars true 5 2 1 1 [[1, 2, 3]] [[4, 5, 6]]
        (fun _ k => List.range k)).length = 2 ∧
    ((update_exemplars true 5 2 1 1 [[1, 2, 3]] [[4, 5, 6]]
        (fun _ k => List.range k)).map List.length).sum ≤ 5 := by
  obtain ⟨h1, -, h3⟩ := update_exemplars_respects_capacity 5 2 1 1
    [[1, 2, 3]] [[4, 5, 6]] (fun _ k => List.range k)
    (by decide) (by decide) (by decide) (by intro h; exact absurd h (by decide))
    (by decide) (fun a b => List.length_range b)
  exact ⟨h1, h3⟩

/-- C8: when the number of known classes exceeds the capacity `K`, the
per-class quota `K / n_known_classes` is zero and `update_exemplars` ends the
call with every class — old ones truncated, new ones freshly selected —
holding exactly zero exemplars: the result is `n_known_classes` empty lists,
with no error and no division artifact. -/
theorem zero_quota_empties_all_classes
    (K n_known cpg : Nat) (cs : Int)
    (exemplars newClassSets : List (List Nat)) (pick : Nat → Nat → List Nat)
    (hcpg : cpg ≤ n_known)
    (hlen : exemplars.length = n_known - cpg)
    (hstep : cs ≤ 0 → exemplars = [])
    (hnew : newClassSets.length = cpg)
    (hpick : ∀ a b, (pick a b).length = b)
    (hK : K < n_known) :
    update_exemplars true K n_known cpg cs exemplars newClassSets pick =
      List.replicate n_known [] := by
  obtain ⟨h1, h2⟩ := update_exemplars_shape K n_known cpg cs exemplars
    newClassSets pick hcpg hlen hstep hnew hpick
  have hm : K / n_known = 0 := Nat.div_eq_of_lt hK
  refine List.eq_replicate_iff.mpr ⟨h1, ?_⟩
  intro b hb
  have hble := h2 b hb
  rw [hm] at hble
  exact List.length_eq_zero.mp (Nat.le_zero.mp hble)

theorem zero_quota_witness :
    update_exemplars true 1 2 1 1 [[7]] [[4, 5]]
        (fun _ k => List.range k) = List.replicate 2 [] :=
  zero_quota_empties_all_classes 1 2 1 1 [[7]] [[4, 5]]
    (fun _ k => List.range k) (by decide) (by decide)
    (by intro h; exact absurd h (by decide)) (by decide)
    (fun a b => List.length_range b) (by decide)

/-! Theorems on reuse of the initialization tensor across growth events. -/

/-- Once the alias between `init_weights` and the live head weight tensor is
broken (which the first head regrowth does), no operation — stepping,
training, or further regrowth — changes `init_weights` again. -/
theorem run_keeps_init_weights : ∀ (ops : List Op) (s : Learner),
    s.aliased = false →
    (run s ops).init_weights = s.init_weights ∧ (run s ops).aliased = false := by
  intro ops
  induction ops with
  | nil => intro s h; exact ⟨rfl, h⟩
  | cons op ops ih =>
    intro s h
    have hop : (runOp s op).init_weights = s.init_weights ∧
        (runOp s op).aliased = false := by
      cases op with
      | stepOp => exact ⟨rfl, h⟩
      | updateNetsOp =>
        constructor
        · show (update_nets s).init_weights = s.init_weights
          unfold update_nets
          split <;> rfl
        · show (update_nets s).aliased = false
          unfold update_nets
          split
          · rfl
          · exact h
      | trainOp f =>
        constructor
        · show (train_update f s).init_weights = s.init_weights
          simp [train_update, h]
        · exact h
    have hrest := ih (runOp s op) hop.2
    exact ⟨hrest.1.trans hop.1, hrest.2⟩

theorem update_nets_grow_fc (t : Learner) (h : t.current_step > 0) :
    (update_nets t).fc_weight = t.fc_weight ++ t.init_weights := by
  unfold update_nets
  rw [if_pos h]

theorem update_nets_grow_aliased (t : Learner) (h : t.current_step > 0) :
    (update_nets t).aliased = false := by
  unfold update_nets
  rw [if_pos h]

theorem update_nets_init (t : Learner) :
    (update_nets t).init_weights = t.init_weights := by
  unfold update_nets
  split <;> rfl

/-- C5: for any two head-growth events of one session — a first growth from
state `s` and a later growth after further operations `mid` — the trailing
rows freshly appended by the second growth are exactly the rows appended by
the first: both are the one `init_weights` tensor, which no operation
regenerates or modifies once it stops aliasing the live head. -/
theorem growth_appends_identical_rows (s : Learner) (mid : List Op)
    (h1 : s.current_step > 0)
    (h2 : (run (update_nets s) mid).current_step > 0) :
    (update_nets (run (update_nets s) mid)).fc_weight.drop
        (run (update_nets s) mid).fc_weight.length
      = (update_nets s).fc_weight.drop s.fc_weight.length := by
  have hkeep := run_keeps_init_weights mid (update_nets s)
    (update_nets_grow_aliased s h1)
  rw [update_nets_grow_fc _ h2, update_nets_grow_fc _ h1, List.drop_left,
    List.drop_left, hkeep.1, update_nets_init]

/-- A sequence of operations between two growth events: advance the step and
run a training pass that rescales the head weights. -/
def midOpsEx : List Op :=
  [Op.stepOp, Op.trainOp (fun w => w.map (fun r => r.map (fun x => x + 1)))]

theorem growth_appends_identical_rows_witness :
    (update_nets (run (update_nets grownEx) midOpsEx)).fc_weight.drop
        (run (update_nets grownEx) midOpsEx).fc_weight.length
      = (update_nets grownEx).fc_weight.drop grownEx.fc_weight.length :=
  growth_appends_identical_rows grownEx midOpsEx (by decide) (by decide)

end ProjectIL
